import Mathlib

/-!
Verification of the columnar query engine (ruba): a shallow embedding of the
column encoding, query planning, driver and ingestion-buffer code, with
theorems settling the specification claims.  Definitions follow the source
files (`src/columns/integers.rs`, `src/engine/query_plan.rs`,
`src/engine/query.rs`, `src/engine/vector_operator.rs`, `src/ingest/buffer.rs`).
Parts of the repository that the source snapshot does not contain (the typed
vector, raw column, codec and expression modules) are modelled from the
specification and marked as such.
-/

namespace Ruba

/-! ## Machine integer model

i64 arithmetic is modelled on `Int` with explicit two's-complement wrapping
where the source performs native arithmetic that can overflow. -/

/-- Two's-complement wrap of an unbounded integer into the i64 range. -/
def wrap64 (x : Int) : Int := (x + 2 ^ 63) % 2 ^ 64 - 2 ^ 63

/-- i64 subtraction (wrapping, as in an optimized build). -/
def i64sub (a b : Int) : Int := wrap64 (a - b)

/-- i64 addition (wrapping, as in an optimized build). -/
def i64add (a b : Int) : Int := wrap64 (a + b)

/-- Rust `T::from(v).unwrap()` for an unsigned integer type whose maximal
value is `wMax`: succeeds exactly when `v` is representable; `none` models
the panic of `unwrap` on `None`. -/
def uFrom (wMax : Nat) (v : Int) : Option Nat :=
  if 0 ≤ v ∧ v ≤ (wMax : Int) then some v.toNat else none

/-- `u8::MAX as i64`. -/
def u8MAX : Nat := 255

/-- `u16::MAX as i64`. -/
def u16MAX : Nat := 65535

/-- `u32::MAX as i64`. -/
def u32MAX : Nat := 4294967295

/-! ## Values

Modelled from the spec: `RawVal` is the universal value union
{Null, Int(i64), Str(string)} (`ingest/raw_val.rs` is not in src/). -/

/-- The raw value union used during ingestion and as operator constants. -/
inductive RawVal where
  | Null : RawVal
  | Int (i : Int) : RawVal
  | Str (s : String) : RawVal
deriving DecidableEq, Repr

/-- Modelled from the spec: the decoded value type yielded by column
iterators (`value.rs` is not in src/; only the `Integer` variant is used by
`columns/integers.rs`). -/
inductive ValueType where
  | Null : ValueType
  | Integer (i : Int) : ValueType
  | Str (s : String) : ValueType
deriving DecidableEq, Repr

/-! ## Integer columns (`src/columns/integers.rs`) -/

/-- The frozen integer column produced by `IntegerColumn::new`: one of the
three offset encodings (`IntegerOffsetColumn::<u8/u16/u32>`) or the raw i64
fallback (`IntegerColumn`). -/
inductive FrozenIntColumn where
  | offset8 (codes : List Nat) (offset : Int) : FrozenIntColumn
  | offset16 (codes : List Nat) (offset : Int) : FrozenIntColumn
  | offset32 (codes : List Nat) (offset : Int) : FrozenIntColumn
  | raw (values : List Int) : FrozenIntColumn
deriving DecidableEq, Repr

/-- `IntegerOffsetColumn::<T>::new`: encode every value as `v - offset` into
the unsigned width with maximum `wMax`; `none` models the panic of
`T::from(v - offset).unwrap()` when a value does not fit. -/
def IntegerOffsetColumn.new (wMax : Nat) (values : List Int) (offset : Int) :
    Option (List Nat) :=
  values.mapM (fun v => uFrom wMax (i64sub v offset))

/-- `IntegerColumn::new`: select the narrowest offset encoding by comparing
`max - min` (i64 arithmetic) against `u8::MAX`, `u16::MAX`, `u32::MAX`, and
otherwise keep the raw i64 values. -/
def IntegerColumn.new (values : List Int) (min max : Int) :
    Option FrozenIntColumn :=
  if i64sub max min ≤ (u8MAX : Int) then
    (IntegerOffsetColumn.new u8MAX values min).map (fun cs => .offset8 cs min)
  else if i64sub max min ≤ (u16MAX : Int) then
    (IntegerOffsetColumn.new u16MAX values min).map (fun cs => .offset16 cs min)
  else if i64sub max min ≤ (u32MAX : Int) then
    (IntegerOffsetColumn.new u32MAX values min).map (fun cs => .offset32 cs min)
  else
    some (.raw values)

/-- `IntegerOffsetColumn::iter`: decode each stored code by
`i.to_i64().unwrap() + offset` (i64 addition). -/
def IntegerOffsetColumn.iter (codes : List Nat) (offset : Int) : List ValueType :=
  codes.map (fun c => ValueType.Integer (i64add (Int.ofNat c) offset))

/-- The freeze rule as the claim states it, in unbounded integer arithmetic:
the narrowest of u8/u16/u32 such that `max - min ≤ type::MAX`, otherwise raw
i64; offset codes are `v - min`. -/
def claimedFreeze (values : List Int) (min max : Int) : FrozenIntColumn :=
  if max - min ≤ (u8MAX : Int) then
    .offset8 (values.map (fun v => (v - min).toNat)) min
  else if max - min ≤ (u16MAX : Int) then
    .offset16 (values.map (fun v => (v - min).toNat)) min
  else if max - min ≤ (u32MAX : Int) then
    .offset32 (values.map (fun v => (v - min).toNat)) min
  else
    .raw values

/-! ## Engine data types

Modelled from the spec where the defining module is not in src/:
`engine/typed_vec.rs` (TypedVec), `engine/filter.rs` (Filter),
`engine/types.rs` (Type descriptor), `syntax/expression.rs` (Expr),
`engine/aggregator.rs` (Aggregator), `syntax/limit.rs` (LimitClause),
`mem_store/column.rs` (Column/ColumnData/ColumnCodec) and the `QueryError`
enum. -/

/-- Modelled from the spec: the tagged runtime vector flowing between
operators (typed slices, bit-vector, constant scalar, null run). -/
inductive TypedVec where
  | Int (xs : List Int) : TypedVec
  | U8 (xs : List Nat) : TypedVec
  | U16 (xs : List Nat) : TypedVec
  | U32 (xs : List Nat) : TypedVec
  | Str (xs : List String) : TypedVec
  | Boolean (bs : List Bool) : TypedVec
  | Constant (v : RawVal) : TypedVec
  | EmptyVec (len : Nat) : TypedVec
deriving DecidableEq, Repr

/-- Modelled from the spec: the plan-time filter value
{None, BitVec, Indices}. -/
inductive Filter where
  | None : Filter
  | BitVec (b : List Bool) : Filter
  | Indices (ixs : List Nat) : Filter
deriving DecidableEq, Repr

/-- Modelled from the spec: the query error kinds of the error-handling
design (payload messages are elided). -/
inductive QueryError where
  | TypeError : QueryError
  | UnsupportedQuery : QueryError
  | UnknownColumn : QueryError
  | FatalError : QueryError
  | OutOfRange : QueryError
deriving DecidableEq, Repr

/-- An aborted computation: either a Rust `panic!`/`unimplemented!` (with the
static part of its message) or a returned `QueryError` value.  The
distinction matters: a panic crashes, an error value is propagated. -/
inductive RunError where
  | panicked (msg : String) : RunError
  | err (e : QueryError) : RunError
deriving DecidableEq, Repr

/-- Modelled from the spec: the expression AST with variants ColName, Const
and Func over {LT, Equals, And, Or}. -/
inductive FuncType where
  | LT : FuncType
  | Equals : FuncType
  | And : FuncType
  | Or : FuncType
deriving DecidableEq, Repr

/-- Modelled from the spec: parsed query expressions. -/
inductive Expr where
  | ColName (name : String) : Expr
  | Const (v : RawVal) : Expr
  | Func (ft : FuncType) (lhs rhs : Expr) : Expr
deriving DecidableEq, Repr

/-- Modelled from the spec: the aggregator kinds COUNT and SUM. -/
inductive Aggregator where
  | Count : Aggregator
  | Sum : Aggregator
deriving DecidableEq, Repr

/-- Modelled from the spec: the LIMIT/OFFSET clause. -/
structure LimitClause where
  limit : Nat
  offset : Nat
deriving DecidableEq, Repr

/-- Modelled from the spec: the basic element types. -/
inductive BasicType where
  | Integer : BasicType
  | String : BasicType
  | Boolean : BasicType
  | Null : BasicType
deriving DecidableEq, Repr

/-- Modelled from the spec: the encoding tags of the type descriptor. -/
inductive EncodingType where
  | I64 : EncodingType
  | U8 : EncodingType
  | U16 : EncodingType
  | U32 : EncodingType
  | StrCodes : EncodingType
  | BitVecE : EncodingType
deriving DecidableEq, Repr

/-- Modelled from the spec: the encoded (codec) view of a column: either an
offset-integer code stream or a string-dictionary code stream. -/
inductive Codec where
  | intOffset (wMax : Nat) (codes : List Nat) (offset : Int) : Codec
  | strDict (codebook : List String) (codes : List Nat) : Codec
deriving DecidableEq, Repr

/-- Modelled from the spec: a frozen column's data, with or without a
compact codec view. -/
inductive ColumnData where
  | nullCol (len : Nat) : ColumnData
  | rawInt (values : List Int) : ColumnData
  | rawStr (values : List String) : ColumnData
  | encInt (wMax : Nat) (codes : List Nat) (offset : Int) : ColumnData
  | encStr (codebook : List String) (codes : List Nat) : ColumnData
deriving DecidableEq, Repr

/-- `ColumnData::to_codec`: the codec view, when a compact encoding exists. -/
def ColumnData.to_codec : ColumnData → Option Codec
  | .encInt wMax codes offset => some (.intOffset wMax codes offset)
  | .encStr codebook codes => some (.strDict codebook codes)
  | _ => none

/-- Modelled from the spec: a frozen column (name map entry) wrapping its
data. -/
structure Column where
  data : ColumnData
deriving DecidableEq, Repr

/-- Modelled from the spec: the type descriptor {basic type, optional codec
back-reference, scalar flag}; the ownership/mutability flag of the source is
not modelled (no claim depends on it). -/
structure Ty where
  decoded : BasicType
  codec : Option Codec
  is_scalar : Bool
deriving DecidableEq, Repr

/-- `RawVal::get_type`. -/
def RawVal.get_type : RawVal → BasicType
  | .Null => .Null
  | .Int _ => .Integer
  | .Str _ => .String

/-- `Type::scalar`. -/
def Ty.scalar (b : BasicType) : Ty := ⟨b, none, true⟩

/-- `Type::bit_vec` (the Boolean result type of predicates). -/
def Ty.bit_vec : Ty := ⟨.Boolean, none, false⟩

/-- `Type::decoded`: the descriptor of the decoded view (codec dropped). -/
def Ty.toDecoded (t : Ty) : Ty := { t with codec := none }

/-- `Type::mutable`: identity in this model (the ownership flag is not
modelled). -/
def Ty.mutable (t : Ty) : Ty := t

/-- `Type::is_encoded`. -/
def Ty.is_encoded (t : Ty) : Bool := t.codec.isSome

/-- The encoding tag of a type descriptor, from its codec's width. -/
def Ty.encoding_type (t : Ty) : EncodingType :=
  match t.codec with
  | some (.intOffset wMax _ _) =>
    if wMax ≤ u8MAX then .U8 else if wMax ≤ u16MAX then .U16 else .U32
  | some (.strDict _ _) => .StrCodes
  | none =>
    match t.decoded with
    | .Boolean => .BitVecE
    | _ => .I64

/-- `ColumnData::full_type`: basic type plus codec back-reference. -/
def ColumnData.full_type (d : ColumnData) : Ty :=
  match d with
  | .nullCol _ => ⟨.Null, none, false⟩
  | .rawInt _ => ⟨.Integer, none, false⟩
  | .rawStr _ => ⟨.String, none, false⟩
  | .encInt wMax codes offset => ⟨.Integer, some (.intOffset wMax codes offset), false⟩
  | .encStr codebook codes => ⟨.String, some (.strDict codebook codes), false⟩

/-! ## Query plan (`src/engine/query_plan.rs`) -/

/-- The query-plan node tree (`enum QueryPlan`). -/
inductive QueryPlan where
  | GetDecode (col : ColumnData) : QueryPlan
  | FilterDecode (col : ColumnData) (filter : List Bool) : QueryPlan
  | IndexDecode (col : ColumnData) (indices : List Nat) : QueryPlan
  | GetEncoded (codec : Codec) : QueryPlan
  | FilterEncoded (codec : Codec) (filter : List Bool) : QueryPlan
  | IndexEncoded (codec : Codec) (indices : List Nat) : QueryPlan
  | Decode (plan : QueryPlan) : QueryPlan
  | EncodeStrConstant (plan : QueryPlan) (codec : Codec) : QueryPlan
  | EncodeIntConstant (plan : QueryPlan) (codec : Codec) : QueryPlan
  | LessThanVS (t : EncodingType) (lhs rhs : QueryPlan) : QueryPlan
  | EqualsVS (t : EncodingType) (lhs rhs : QueryPlan) : QueryPlan
  | And (lhs rhs : QueryPlan) : QueryPlan
  | Or (lhs rhs : QueryPlan) : QueryPlan
  | Constant (v : RawVal) : QueryPlan
deriving DecidableEq, Repr

/-- The batch's column map, as an association list with the lookup of
`HashMap::get`. -/
def lookupCol : List (String × Column) → String → Option Column
  | [], _ => none
  | (k, c) :: rest, n => if n = k then some c else lookupCol rest n

/-- `QueryPlan::create_query_plan`: plan construction from an expression,
the batch's column map and the ambient filter.  A `RunError.panicked` result
models the source's `panic!` / `unimplemented!` / failed `assert!`. -/
def create_query_plan (expr : Expr) (columns : List (String × Column))
    (filter : Filter) : Except RunError (QueryPlan × Ty) :=
  match expr with
  | .ColName name =>
    match lookupCol columns name with
    | some c =>
      let t := c.data.full_type
      match c.data.to_codec, filter with
      | none, .None => .ok (.GetDecode c.data, t.toDecoded)
      | none, .BitVec f => .ok (.FilterDecode c.data f, t.toDecoded)
      | none, .Indices f => .ok (.IndexDecode c.data f, t.toDecoded)
      | some cc, .None => .ok (.GetEncoded cc, t)
      | some cc, .BitVec f => .ok (.FilterEncoded cc f, t.mutable)
      | some cc, .Indices f => .ok (.IndexEncoded cc f, t.mutable)
    | none => .error (.panicked "Not implemented")
  | .Func .LT lhs rhs => do
    let (plan_lhs, type_lhs) ← create_query_plan lhs columns filter
    let (plan_rhs, type_rhs) ← create_query_plan rhs columns filter
    match type_lhs.decoded, type_rhs.decoded with
    | .Integer, .Integer =>
      if type_rhs.is_scalar then
        if type_lhs.is_encoded then
          match type_lhs.codec with
          | some codec =>
            .ok (.LessThanVS type_lhs.encoding_type plan_lhs
                  (.EncodeIntConstant plan_rhs codec),
                 (Ty.mk .Boolean none false).mutable)
          | none => .error (.panicked "unwrap on None")
        else
          .ok (.LessThanVS type_lhs.encoding_type plan_lhs plan_rhs,
               (Ty.mk .Boolean none false).mutable)
      else
        .error (.panicked "not implemented")
    | _, _ => .error (.panicked "type error")
  | .Func .Equals lhs rhs => do
    let (plan_lhs, type_lhs) ← create_query_plan lhs columns filter
    let (plan_rhs, type_rhs) ← create_query_plan rhs columns filter
    match type_lhs.decoded, type_rhs.decoded with
    | .String, .String =>
      if type_rhs.is_scalar then
        if type_lhs.is_encoded then
          match type_lhs.codec with
          | some codec =>
            .ok (.EqualsVS type_lhs.encoding_type plan_lhs
                  (.EncodeStrConstant plan_rhs codec),
                 (Ty.mk .Boolean none false).mutable)
          | none => .error (.panicked "unwrap on None")
        else
          .ok (.EqualsVS type_lhs.encoding_type plan_lhs plan_rhs,
               (Ty.mk .Boolean none false).mutable)
      else
        .error (.panicked "not implemented")
    | .Integer, .Integer =>
      if type_rhs.is_scalar then
        if type_lhs.is_encoded then
          match type_lhs.codec with
          | some codec =>
            .ok (.EqualsVS type_lhs.encoding_type plan_lhs
                  (.EncodeIntConstant plan_rhs codec),
                 (Ty.mk .Boolean none false).mutable)
          | none => .error (.panicked "unwrap on None")
        else
          .ok (.EqualsVS type_lhs.encoding_type plan_lhs plan_rhs,
               (Ty.mk .Boolean none false).mutable)
      else
        .error (.panicked "not implemented")
    | _, _ => .error (.panicked "type error")
  | .Func .Or lhs rhs => do
    let (plan_lhs, type_lhs) ← create_query_plan lhs columns filter
    let (plan_rhs, type_rhs) ← create_query_plan rhs columns filter
    if type_lhs.decoded = .Boolean ∧ type_rhs.decoded = .Boolean then
      .ok (.Or plan_lhs plan_rhs, Ty.bit_vec)
    else
      .error (.panicked "assertion failed")
  | .Func .And lhs rhs => do
    let (plan_lhs, type_lhs) ← create_query_plan lhs columns filter
    let (plan_rhs, type_rhs) ← create_query_plan rhs columns filter
    if type_lhs.decoded = .Boolean ∧ type_rhs.decoded = .Boolean then
      .ok (.And plan_lhs plan_rhs, Ty.bit_vec)
    else
      .error (.panicked "assertion failed")
  | .Const v => .ok (.Constant v, Ty.scalar v.get_type)

/-- The column-reference plan node the claim describes: encoded access
(`GetEncoded`/`FilterEncoded`/`IndexEncoded`) when the column has a codec,
the corresponding decoded variant otherwise, selected by the ambient
filter. -/
def claimedColNode (d : ColumnData) (f : Filter) : QueryPlan :=
  match d.to_codec, f with
  | some cc, .None => .GetEncoded cc
  | some cc, .BitVec b => .FilterEncoded cc b
  | some cc, .Indices ixs => .IndexEncoded cc ixs
  | none, .None => .GetDecode d
  | none, .BitVec b => .FilterDecode d b
  | none, .Indices ixs => .IndexDecode d ixs

/-! ## Vector operators (`src/engine/vector_operator.rs`) -/

/-- `TypedVec::cast_ref_u16().0`: the u16 code slice; `none` models the
panic on any other variant. -/
def TypedVec.cast_ref_u16 : TypedVec → Option (List Nat)
  | .U16 xs => some xs
  | _ => none

/-- `TypedVec::cast_ref_u8().0`. -/
def TypedVec.cast_ref_u8 : TypedVec → Option (List Nat)
  | .U8 xs => some xs
  | _ => none

/-- `TypedVec::cast_int_const`: the integer constant carried by a scalar
vector; `none` models the panic on any other variant. -/
def TypedVec.cast_int_const : TypedVec → Option ℤ
  | .Constant (.Int i) => some i
  | _ => none

/-- `TypedVec::get_type`. -/
def TypedVec.get_type : TypedVec → EncodingType
  | .Int _ => .I64
  | .U8 _ => .U8
  | .U16 _ => .U16
  | .U32 _ => .U32
  | .Str _ => .StrCodes
  | .Boolean _ => .BitVecE
  | .Constant _ => .I64
  | .EmptyVec _ => .I64

/-- Rust `i as u16` on an i64 value: truncation to the low 16 bits. -/
def asU16 (i : Int) : Nat := (i % 65536).toNat

/-- `EqualsVSU16::execute`: compare a u16 code vector against an integer
constant; the constant is cast with `as u16` (the source carries a
`TODO(clemens): range check` at this cast). -/
def EqualsVSU16.execute (lhs rhs : TypedVec) : Option TypedVec := do
  let data ← lhs.cast_ref_u16
  let c ← rhs.cast_int_const
  let s := asU16 c
  some (.Boolean (data.map (fun l => decide (l = s))))

/-- Modelled from the spec: `encode_int(i) → Int(i − offset)` with range
check; an out-of-range constant maps to the in-band sentinel `-1`, which is
negative and therefore equals no valid (unsigned) code
(`EncodeIntConstant`'s operator module `engine/vector_op.rs` is not in
src/). -/
def encode_int (wMax : Nat) (offset : Int) (i : Int) : RawVal :=
  if 0 ≤ i - offset ∧ i - offset ≤ (wMax : Int) then .Int (i - offset)
  else .Int (-1)

/-! ## Query driver (`src/engine/query.rs`) -/

/-- The filter-phase disposition of `Query::run` / `Query::run_aggregate`
(lines 38-41 and 93-96): a Boolean result becomes `Filter::BitVec`, every
other result becomes `Filter::None`. -/
def filterFromResult : TypedVec → Filter
  | .Boolean b => .BitVec b
  | _ => .None

/-- The filter-phase disposition as the claim states it: Boolean results
become `Filter::BitVec`; with no WHERE clause the filter is `Filter::None`;
every other result type of a WHERE clause is a fatal query error. -/
def claimedFilterDisposition (hasWhere : Bool) : TypedVec → Except QueryError Filter
  | .Boolean b => .ok (.BitVec b)
  | _ => if hasWhere then .error .FatalError else .ok .None

/-- Modelled from the spec: the query struct consumed by the driver. -/
structure Query where
  select : List Expr
  table : String
  filter : Expr
  aggregate : List (Aggregator × Expr)
  order_by : Option String
  order_desc : Bool
  limit : LimitClause
  order_by_index : Option Nat
deriving DecidableEq, Repr

/-- `Query::result_column_names`, select part: the source's running counter
`anon_columns` starts at `-1` and is incremented before use for every
non-bare select expression. -/
def selectColNames : List Expr → Int → List String
  | [], _ => []
  | .ColName name :: rest, anon => name :: selectColNames rest anon
  | _ :: rest, anon =>
    ("col_" ++ toString (anon + 1)) :: selectColNames rest (anon + 1)

/-- `Query::result_column_names`, aggregate part: the running counter
`anon_aggregates` starts at `-1` and is incremented for every aggregator. -/
def aggColNames : List (Aggregator × Expr) → Int → List String
  | [], _ => []
  | (agg, _) :: rest, anon =>
    (match agg with
     | .Count => "count_" ++ toString (anon + 1)
     | .Sum => "sum_" ++ toString (anon + 1)) :: aggColNames rest (anon + 1)

/-- `Query::result_column_names`. -/
def Query.result_column_names (q : Query) : List String :=
  selectColNames q.select (-1) ++ aggColNames q.aggregate (-1)

/-- The select-list names as the claim states them: a bare column reference
keeps its name; any other expression is named `col_k` where `k` counts only
the non-bare select expressions before it. -/
def claimedSelectNames : List Expr → Nat → List String
  | [], _ => []
  | .ColName name :: rest, k => name :: claimedSelectNames rest k
  | _ :: rest, k => ("col_" ++ toString k) :: claimedSelectNames rest (k + 1)

/-- The aggregate names as the claim states them: `count_k` or `sum_k`
according to the aggregator kind, numbered by position in the aggregate
list. -/
def claimedAggNames : List (Aggregator × Expr) → Nat → List String
  | [], _ => []
  | (agg, _) :: rest, k =>
    (match agg with
     | .Count => "count_" ++ toString k
     | .Sum => "sum_" ++ toString k) :: claimedAggNames rest (k + 1)

/-! ## Aggregation preparation (`src/engine/query_plan.rs`) -/

/-- The compiled aggregation operator produced by `prepare_aggregation`
(`VecCount` over a u8 or u16 grouping-key vector; `engine/
aggregation_operator.rs` is not in src/, so only the constructor shape is
carried). -/
inductive AggOperator where
  | VecCountU8 (grouping : List Nat) (max_index : Nat) (dense : Bool) : AggOperator
  | VecCountU16 (grouping : List Nat) (max_index : Nat) (dense : Bool) : AggOperator
deriving DecidableEq, Repr

/-- `prepare_aggregation`: only COUNT of a constant integer plan over a
u8/u16 grouping key is implemented; every other aggregator/plan pairing
panics (`RunError.panicked`). -/
def prepare_aggregation (plan : QueryPlan) (grouping : TypedVec)
    (max_index : Nat) (aggregator : Aggregator) : Except RunError AggOperator :=
  match aggregator, plan with
  | .Count, .Constant (.Int _) =>
    match grouping.get_type with
    | .U8 =>
      match grouping.cast_ref_u8 with
      | some g => .ok (.VecCountU8 g max_index false)
      | none => .error (.panicked "cast_ref_u8")
    | .U16 =>
      match grouping.cast_ref_u16 with
      | some g => .ok (.VecCountU16 g max_index false)
      | none => .error (.panicked "cast_ref_u16")
    | _ => .error (.panicked "unsupported type for grouping key")
  | _, _ => .error (.panicked "prepare_aggregation not implemented")

/-! ## ORDER BY phase of the driver (`src/engine/query.rs` lines 44-66) -/

/-- The ordering key of a row index: the value of the executed ordering
vector at that position. -/
def ordKey (col : List Int) (i : Nat) : Int := col.getD i 0

/-- Ascending comparison of two row indices by their ordering keys. -/
def ascRel (col : List Int) (i j : Nat) : Prop := ordKey col i ≤ ordKey col j

/-- Descending comparison of two row indices by their ordering keys. -/
def descRel (col : List Int) (i j : Nat) : Prop := ordKey col j ≤ ordKey col i

instance (col : List Int) : DecidableRel (ascRel col) :=
  fun _ _ => Int.decLe _ _

instance (col : List Int) : DecidableRel (descRel col) :=
  fun _ _ => Int.decLe _ _

/-- Modelled from the spec: `TypedVec::sort_indices_asc`
(`engine/typed_vec.rs` is not in src/): stable ascending sort of the index
list by the ordering vector. -/
def sort_indices_asc (col : List Int) (indices : List Nat) : List Nat :=
  List.insertionSort (ascRel col) indices

/-- Modelled from the spec: `TypedVec::sort_indices_desc`: stable descending
sort of the index list by the ordering vector. -/
def sort_indices_desc (col : List Int) (indices : List Nat) : List Nat :=
  List.insertionSort (descRel col) indices

/-- The sort applied by the driver, selected by `order_desc`. -/
def ixSort (order_desc : Bool) (col : List Int) (l : List Nat) : List Nat :=
  if order_desc then sort_indices_desc col l else sort_indices_asc col l

/-- The row order the driver's sort must establish: descending or ascending
by the ordering vector, per `order_desc`. -/
def driverOrd (order_desc : Bool) (col : List Int) (i j : Nat) : Prop :=
  if order_desc then descRel col i j else ascRel col i j

instance (col : List Int) : IsTotal Nat (ascRel col) :=
  ⟨fun a b => Int.le_total (ordKey col a) (ordKey col b)⟩

instance (col : List Int) : IsTrans Nat (ascRel col) :=
  ⟨fun _ _ _ hab hbc => le_trans hab hbc⟩

instance (col : List Int) : IsTotal Nat (descRel col) :=
  ⟨fun a b => (Int.le_total (ordKey col b) (ordKey col a)).imp id id⟩

instance (col : List Int) : IsTrans Nat (descRel col) :=
  ⟨fun _ _ _ hab hbc => le_trans hbc hab⟩

/-- Positions of the set bits of a filter bit-vector
(`vec.iter().enumerate().filter(|x| x.1).map(|x| x.0).collect()`). -/
def bitPositions (b : List Bool) : List Nat :=
  (b.enum.filter (fun x => x.2)).map (fun x => x.1)

/-- The ORDER BY block of `Query::run`: derive the index list from the
filter (set-bit positions for a bit-vector, `0..N` for no filter, fatal
error for an index list), sort it ascending or descending by the ordering
vector, truncate to `limit + offset`, and replace the filter with
`Filter::Indices`. -/
def orderByPhase (sortColumn : List Int) (filter : Filter) (order_desc : Bool)
    (limit offset : Nat) : Except QueryError Filter := do
  let sortIndices ← match filter with
    | .BitVec vec => Except.ok (bitPositions vec)
    | .None => Except.ok (List.range sortColumn.length)
    | .Indices _ => Except.error QueryError.FatalError
  let sorted := if order_desc then sort_indices_desc sortColumn sortIndices
                else sort_indices_asc sortColumn sortIndices
  Except.ok (.Indices (sorted.take (limit + offset)))

/-! ## Ingestion buffer (`src/ingest/buffer.rs`) -/

/-- Modelled from the spec: a RawCol is an ordered sequence of raw values
(`mem_store/raw_col.rs` is not in src/; only the operations `buffer.rs`
calls are modelled, classification is irrelevant to the claims). -/
abbrev RawCol := List RawVal

/-- `RawCol::len`. -/
def RawCol.len (c : RawCol) : Nat := c.length

/-- `RawCol::with_nulls`: a fresh column holding `n` nulls. -/
def RawCol.with_nulls (n : Nat) : RawCol := List.replicate n RawVal.Null

/-- `RawCol::push`. -/
def RawCol.push (c : RawCol) (v : RawVal) : RawCol := c ++ [v]

/-- `RawCol::push_nulls`. -/
def RawCol.push_nulls (c : RawCol) (n : Nat) : RawCol :=
  c ++ List.replicate n RawVal.Null

/-- `RawCol::push_ints`. -/
def RawCol.push_ints (c : RawCol) (xs : List Int) : RawCol :=
  c ++ xs.map RawVal.Int

/-- `RawCol::push_strings`. -/
def RawCol.push_strings (c : RawCol) (xs : List String) : RawCol :=
  c ++ xs.map RawVal.Str

/-- The loop `for input_val in input_vals { buffered_col.push(input_val) }`
of `push_untyped_cols`. -/
def RawCol.push_vals (c : RawCol) (vals : List RawVal) : RawCol :=
  vals.foldl RawCol.push c

/-- Modelled from the spec: a typed input column
(`ingest/input_column.rs` is not in src/). -/
inductive InputColumn where
  | IntCol (xs : List Int) : InputColumn
  | StrCol (xs : List String) : InputColumn
  | NullCol (n : Nat) : InputColumn
deriving DecidableEq, Repr

/-- The `match input_col { ... }` dispatch of `push_typed_cols`. -/
def RawCol.push_input (c : RawCol) : InputColumn → RawCol
  | .IntCol xs => c.push_ints xs
  | .StrCol xs => c.push_strings xs
  | .NullCol n => c.push_nulls n

/-- The ingestion buffer: a map column-name to RawCol plus the recorded row
count (`HashMap<String, RawCol>` modelled as a function). -/
structure Buffer where
  buffer : String → Option RawCol
  length : Nat

/-- `Buffer::default`. -/
def Buffer.defaultBuffer : Buffer := ⟨fun _ => none, 0⟩

/-- `Buffer::len`. -/
def Buffer.len (b : Buffer) : Nat := b.length

/-- Pointwise update of the column map (the write-back of
`self.buffer.entry(name)`). -/
def mapUpdate (m : String → Option RawCol) (name : String) (c : RawCol) :
    String → Option RawCol :=
  fun n => if n = name then some c else m n

/-- `self.buffer.entry(name).or_insert_with(dflt)`: the existing column or
the default. -/
def entryOr (m : String → Option RawCol) (name : String) (dflt : RawCol) :
    RawCol :=
  match m name with
  | some c => c
  | none => dflt

/-- `Buffer::extend_to_largest`: pad every column shorter than the recorded
length with nulls. -/
def Buffer.extend_to_largest (b : Buffer) : Buffer :=
  { b with
    buffer := fun n =>
      (b.buffer n).map (fun col =>
        if col.len < b.length then col.push_nulls (b.length - col.len)
        else col) }

/-- The loop body of `push_row`: push one value onto its (possibly fresh)
column. -/
def rowStep (len : Nat) (m : String → Option RawCol) (p : String × RawVal) :
    String → Option RawCol :=
  mapUpdate m p.1 ((entryOr m p.1 (RawCol.with_nulls len)).push p.2)

/-- `Buffer::push_row`: push each value onto its column (creating absent
columns filled with nulls), increment the recorded length, and pad. -/
def Buffer.push_row (b : Buffer) (row : List (String × RawVal)) : Buffer :=
  let len := b.len
  let buf := row.foldl (rowStep len) b.buffer
  Buffer.extend_to_largest { buffer := buf, length := b.length + 1 }

/-- The shared loop body of `push_typed_cols` and `push_untyped_cols`:
append the pushed data to the (possibly fresh) column and track the largest
column length. -/
def bulkStep {χ : Type} (push1 : RawCol → χ → RawCol) (len : Nat)
    (acc : (String → Option RawCol) × Nat) (p : String × χ) :
    (String → Option RawCol) × Nat :=
  let col := push1 (entryOr acc.1 p.1 (RawCol.with_nulls len)) p.2
  (mapUpdate acc.1 p.1 col, Nat.max acc.2 col.len)

/-- The shared shape of `push_typed_cols`/`push_untyped_cols`: fold the loop
body over the pushed columns starting from `new_length = 0`, set the
recorded length to the running maximum, and pad. -/
def Buffer.push_cols {χ : Type} (b : Buffer) (push1 : RawCol → χ → RawCol)
    (columns : List (String × χ)) : Buffer :=
  let len := b.len
  let res := columns.foldl (bulkStep push1 len) (b.buffer, 0)
  Buffer.extend_to_largest { buffer := res.1, length := res.2 }

/-- `Buffer::push_typed_cols`. -/
def Buffer.push_typed_cols (b : Buffer) (columns : List (String × InputColumn)) :
    Buffer :=
  b.push_cols RawCol.push_input columns

/-- `Buffer::push_untyped_cols`. -/
def Buffer.push_untyped_cols (b : Buffer)
    (columns : List (String × List RawVal)) : Buffer :=
  b.push_cols RawCol.push_vals columns

/-- The buffered-length invariant of the claim: every buffered column has
length equal to the buffer's recorded length. -/
def Buffer.wf (b : Buffer) : Prop :=
  ∀ n c, b.buffer n = some c → RawCol.len c = b.length

/-- One ingestion call of the claim's quantified sequence. -/
inductive PushOp where
  | row (r : List (String × RawVal)) : PushOp
  | typed (cols : List (String × InputColumn)) : PushOp
  | untyped (cols : List (String × List RawVal)) : PushOp

/-- Apply one ingestion call. -/
def Buffer.applyOp (b : Buffer) : PushOp → Buffer
  | .row r => b.push_row r
  | .typed cols => b.push_typed_cols cols
  | .untyped cols => b.push_untyped_cols cols

/-- The precondition of the amended claim: a `push_row` row names each
column at most once (a `Vec` of pairs may repeat names), and a bulk push
receives a nonempty map (`HashMap` keys are unique by construction). -/
def PushOp.good : PushOp → Prop
  | .row r => (r.map Prod.fst).Nodup
  | .typed cols => cols ≠ [] ∧ (cols.map Prod.fst).Nodup
  | .untyped cols => cols ≠ [] ∧ (cols.map Prod.fst).Nodup

instance PushOp.goodDecidable : DecidablePred PushOp.good := fun op =>
  match op with
  | .row r => inferInstanceAs (Decidable ((r.map Prod.fst).Nodup))
  | .typed cols =>
    inferInstanceAs (Decidable (cols ≠ [] ∧ (cols.map Prod.fst).Nodup))
  | .untyped cols =>
    inferInstanceAs (Decidable (cols ≠ [] ∧ (cols.map Prod.fst).Nodup))

end Ruba

namespace Ruba

/-! ## Theorems: integer column freeze (C1, C2) -/

theorem wrap64_eq_self {x : Int} (h0 : -(2 ^ 63) ≤ x) (h1 : x ≤ 2 ^ 63 - 1) :
    wrap64 x = x := by
  unfold wrap64
  omega

theorem i64sub_eq_sub {a b : Int} (h0 : -(2 ^ 63) ≤ a - b)
    (h1 : a - b ≤ 2 ^ 63 - 1) : i64sub a b = a - b :=
  wrap64_eq_self h0 h1

theorem i64add_eq_add {a b : Int} (h0 : -(2 ^ 63) ≤ a + b)
    (h1 : a + b ≤ 2 ^ 63 - 1) : i64add a b = a + b :=
  wrap64_eq_self h0 h1

theorem mapM_eq_map_of_forall {α β : Type} (f : α → Option β) (g : α → β)
    (l : List α) (h : ∀ a ∈ l, f a = some (g a)) :
    l.mapM f = some (l.map g) := by
  induction l with
  | nil => rfl
  | cons a l ih =>
    rw [List.mapM_cons, h a (List.mem_cons_self a l),
      ih (fun x hx => h x (List.mem_cons_of_mem a hx))]
    rfl

theorem IntegerOffsetColumn.new_eq (wMax : Nat) (values : List Int)
    (min : Int) (hw : (wMax : Int) ≤ 2 ^ 63 - 1)
    (hv : ∀ v ∈ values, min ≤ v ∧ v - min ≤ (wMax : Int)) :
    IntegerOffsetColumn.new wMax values min =
      some (values.map (fun v => (v - min).toNat)) := by
  apply mapM_eq_map_of_forall
  intro v hvmem
  obtain ⟨h1, h2⟩ := hv v hvmem
  have hs : i64sub v min = v - min := i64sub_eq_sub (by omega) (by omega)
  rw [hs]
  unfold uFrom
  rw [if_pos ⟨by omega, h2⟩]

/-- C1 (amended): for a finalized all-integer raw column with observed
minimum `min` and maximum `max` whose range `max - min` does not overflow
i64, the frozen column uses u8 encoding when `max - min ≤ u8::MAX`, else u16
when `max - min ≤ u16::MAX`, else u32 when `max - min ≤ u32::MAX`, and
otherwise stores the values as raw i64; in the offset encodings every stored
code equals the original value minus `min`. -/
theorem C1_freeze_selection (values : List Int) (min max : Int)
    (hminmax : min ≤ max)
    (hv : ∀ v ∈ values, min ≤ v ∧ v ≤ max)
    (hr : max - min ≤ 2 ^ 63 - 1) :
    IntegerColumn.new values min max = some (claimedFreeze values min max) := by
  have hsub : i64sub max min = max - min := i64sub_eq_sub (by omega) (by omega)
  have henc : ∀ wMax : Nat, (wMax : Int) ≤ 2 ^ 63 - 1 →
      max - min ≤ (wMax : Int) →
      IntegerOffsetColumn.new wMax values min =
        some (values.map (fun v => (v - min).toNat)) := by
    intro wMax hw hle
    exact IntegerOffsetColumn.new_eq wMax values min hw
      (fun v hv' => ⟨(hv v hv').1, by have := hv v hv'; omega⟩)
  unfold IntegerColumn.new claimedFreeze
  rw [hsub]
  split_ifs with h1 h2 h3
  · rw [henc u8MAX (by decide) h1]; rfl
  · rw [henc u16MAX (by decide) h2]; rfl
  · rw [henc u32MAX (by decide) h3]; rfl
  · rfl

/-- C1 counterexample: on the all-integer column `[i64::MIN, i64::MAX]` the
range `max - min` overflows i64, the wrapped difference `-1` selects the u8
encoding, and the encoder panics (`none`) instead of storing the values as
raw i64 as the claim requires. -/
theorem C1_counterexample :
    IntegerColumn.new [-(2 ^ 63), 2 ^ 63 - 1] (-(2 ^ 63)) (2 ^ 63 - 1) = none ∧
    claimedFreeze [-(2 ^ 63), 2 ^ 63 - 1] (-(2 ^ 63)) (2 ^ 63 - 1) =
      .raw [-(2 ^ 63), 2 ^ 63 - 1] := by
  constructor
  · decide
  · decide

/-- Witness for C1 at a concrete column: values `[3, 10, 5]` with observed
min 3 and max 10 freeze to the u8 offset encoding with codes `[0, 7, 2]`. -/
theorem C1_witness :
    IntegerColumn.new [3, 10, 5] 3 10 = some (claimedFreeze [3, 10, 5] 3 10) ∧
    claimedFreeze [3, 10, 5] 3 10 = .offset8 [0, 7, 2] 3 :=
  ⟨C1_freeze_selection [3, 10, 5] 3 10 (by decide) (by decide) (by decide),
   by decide⟩

/-- C2: for an integer column frozen with offset equal to the observed
minimum whose range fits the chosen width, decoding every stored code
(adding back the offset) yields exactly the original i64 value, and every
stored code is at most the width's maximum. -/
theorem C2_offset_roundtrip (wMax : Nat) (values : List Int) (min max : Int)
    (hw : wMax = u8MAX ∨ wMax = u16MAX ∨ wMax = u32MAX)
    (hmin : -(2 ^ 63) ≤ min) (hmax : max ≤ 2 ^ 63 - 1)
    (hv : ∀ v ∈ values, min ≤ v ∧ v ≤ max)
    (hr : max - min ≤ (wMax : Int)) :
    ∃ codes, IntegerOffsetColumn.new wMax values min = some codes ∧
      IntegerOffsetColumn.iter codes min = values.map ValueType.Integer ∧
      ∀ c ∈ codes, c ≤ wMax := by
  have hwlt : (wMax : Int) ≤ 2 ^ 63 - 1 := by
    rcases hw with h | h | h <;> subst h <;> decide
  have hnew := IntegerOffsetColumn.new_eq wMax values min hwlt
    (fun v hv' => ⟨(hv v hv').1, by have := hv v hv'; omega⟩)
  refine ⟨_, hnew, ?_, ?_⟩
  · unfold IntegerOffsetColumn.iter
    rw [List.map_map]
    apply List.map_congr_left
    intro v hvmem
    obtain ⟨h1, h2⟩ := hv v hvmem
    have htn : Int.ofNat (v - min).toNat = v - min :=
      Int.toNat_of_nonneg (by omega)
    have hadd : i64add (v - min) min = v := by
      rw [i64add_eq_add (by omega) (by omega)]; omega
    simp only [Function.comp]
    rw [htn, hadd]
  · intro c hc
    rw [List.mem_map] at hc
    obtain ⟨v, hvmem, hvc⟩ := hc
    obtain ⟨h1, h2⟩ := hv v hvmem
    omega

/-- Witness for C2 at a concrete column: values `[3, 10, 5]` with offset 3
in the u8 width round-trip through the offset encoding. -/
theorem C2_witness :
    ∃ codes, IntegerOffsetColumn.new u8MAX [3, 10, 5] 3 = some codes ∧
      IntegerOffsetColumn.iter codes 3 = [3, 10, 5].map ValueType.Integer ∧
      ∀ c ∈ codes, c ≤ u8MAX :=
  C2_offset_roundtrip u8MAX [3, 10, 5] 3 10 (Or.inl rfl) (by decide) (by decide)
    (by decide) (by decide)

/-! ## Theorems: driver filter phase (C3) -/

/-- C3 counterexample: a WHERE clause whose plan evaluates to an integer
vector (neither a Boolean bit-vector nor the no-WHERE case) makes the driver
proceed with `Filter::None`, while the claim requires a fatal query error. -/
theorem C3_counterexample :
    filterFromResult (TypedVec.Int [5]) = Filter.None ∧
    claimedFilterDisposition true (TypedVec.Int [5]) =
      Except.error QueryError.FatalError := by
  constructor
  · rfl
  · rfl

/-- C3 (amended): the driver wraps a Boolean filter result as
`Filter::BitVec` and proceeds with `Filter::None` for every other result
type (including the constant produced by an absent WHERE clause); it never
raises an error in the filter phase. -/
theorem C3_filter_disposition (tv : TypedVec) :
    (∀ b, tv = TypedVec.Boolean b → filterFromResult tv = Filter.BitVec b) ∧
    ((∀ b, tv ≠ TypedVec.Boolean b) → filterFromResult tv = Filter.None) := by
  constructor
  · intro b hb
    subst hb
    rfl
  · intro hne
    cases tv with
    | Boolean b => exact absurd rfl (hne b)
    | Int xs => rfl
    | U8 xs => rfl
    | U16 xs => rfl
    | U32 xs => rfl
    | Str xs => rfl
    | Constant v => rfl
    | EmptyVec n => rfl

/-- Witness for C3 at concrete results: a Boolean result becomes a bit-vector
filter and a constant result becomes `Filter::None`. -/
theorem C3_witness :
    filterFromResult (TypedVec.Boolean [true, false]) =
      Filter.BitVec [true, false] ∧
    filterFromResult (TypedVec.Constant (RawVal.Int 1)) = Filter.None :=
  ⟨(C3_filter_disposition (TypedVec.Boolean [true, false])).1 [true, false] rfl,
   (C3_filter_disposition (TypedVec.Constant (RawVal.Int 1))).2
     (fun _ h => TypedVec.noConfusion h)⟩

/-! ## Theorems: unknown column handling (C4) -/

/-- C4 counterexample: plan construction for a reference to the absent
column `x` panics with `Not implemented` instead of returning an
`UnknownColumn` error value. -/
theorem C4_counterexample :
    create_query_plan (Expr.ColName "x") [] Filter.None =
      Except.error (RunError.panicked "Not implemented") := by
  rfl

/-- C4 (amended): for every expression referencing a column name absent from
the batch's column map, plan construction panics (`Not implemented`) rather
than returning an `UnknownColumn` error value; the panic aborts construction
of any enclosing comparison or boolean expression as well (no partial
result). -/
theorem C4_unknown_column (name : String) (columns : List (String × Column))
    (filter : Filter) (h : lookupCol columns name = none) :
    create_query_plan (Expr.ColName name) columns filter =
      Except.error (RunError.panicked "Not implemented") ∧
    ∀ ft rhs, create_query_plan (Expr.Func ft (Expr.ColName name) rhs)
      columns filter = Except.error (RunError.panicked "Not implemented") := by
  have hcol : create_query_plan (Expr.ColName name) columns filter =
      Except.error (RunError.panicked "Not implemented") := by
    unfold create_query_plan
    rw [h]
  refine ⟨hcol, ?_⟩
  intro ft rhs
  cases ft <;> (unfold create_query_plan; rw [hcol]) <;> rfl

/-- Witness for C4: the empty column map does not contain `x`, and plan
construction for `x` and for `x < 1` panics. -/
theorem C4_witness :
    create_query_plan (Expr.ColName "x") [] Filter.None =
      Except.error (RunError.panicked "Not implemented") ∧
    create_query_plan
        (Expr.Func FuncType.LT (Expr.ColName "x") (Expr.Const (RawVal.Int 1)))
        [] Filter.None =
      Except.error (RunError.panicked "Not implemented") :=
  ⟨(C4_unknown_column "x" [] Filter.None rfl).1,
   (C4_unknown_column "x" [] Filter.None rfl).2 FuncType.LT
     (Expr.Const (RawVal.Int 1))⟩

/-! ## Theorems: SUM aggregation (C5) -/

/-- C5 counterexample: preparing a SUM aggregate over a u8 grouping key with
a concrete value plan panics (`prepare_aggregation not implemented`) instead
of building an accumulating kernel. -/
theorem C5_counterexample :
    prepare_aggregation (QueryPlan.Constant (RawVal.Int 1))
        (TypedVec.U8 [0, 1, 0]) 1 Aggregator.Sum =
      Except.error (RunError.panicked "prepare_aggregation not implemented") := by
  rfl

/-- C5 (amended): for every grouped query with a SUM(expr) aggregate, the
aggregation kernel does not aggregate: `prepare_aggregation` panics for
every SUM aggregator regardless of the value plan, the grouping key and the
group count (only COUNT of a constant integer plan is implemented). -/
theorem C5_sum_unimplemented (plan : QueryPlan) (grouping : TypedVec)
    (max_index : Nat) :
    prepare_aggregation plan grouping max_index Aggregator.Sum =
      Except.error (RunError.panicked "prepare_aggregation not implemented") := by
  cases plan <;> rfl

/-! ## Theorems: column-reference plan nodes (C7) -/

/-- C7: for every column reference during plan construction, the emitted
node is `GetEncoded`/`FilterEncoded`/`IndexEncoded` (by ambient filter) when
the column has a codec, and the corresponding decoded variant
(`GetDecode`/`FilterDecode`/`IndexDecode`) when it has none. -/
theorem C7_column_reference (name : String) (columns : List (String × Column))
    (filter : Filter) (c : Column) (h : lookupCol columns name = some c) :
    ∃ t, create_query_plan (Expr.ColName name) columns filter =
      Except.ok (claimedColNode c.data filter, t) := by
  cases hc : c.data.to_codec with
  | none =>
    cases filter <;>
      exact ⟨_, by simp only [create_query_plan, claimedColNode, h, hc]; rfl⟩
  | some cc =>
    cases filter <;>
      exact ⟨_, by simp only [create_query_plan, claimedColNode, h, hc]; rfl⟩

/-- Witness for C7: a dictionary-encoded column under each of the three
ambient filters and a raw column under `Filter::None`. -/
theorem C7_witness :
    (∃ t, create_query_plan (Expr.ColName "s")
        [("s", Column.mk (ColumnData.encStr ["a", "b"] [0, 1, 0]))]
        (Filter.BitVec [true, false, true]) =
      Except.ok (claimedColNode (ColumnData.encStr ["a", "b"] [0, 1, 0])
        (Filter.BitVec [true, false, true]), t)) ∧
    (∃ t, create_query_plan (Expr.ColName "n")
        [("n", Column.mk (ColumnData.rawInt [7, 8]))] Filter.None =
      Except.ok (claimedColNode (ColumnData.rawInt [7, 8]) Filter.None, t)) :=
  ⟨C7_column_reference "s"
      [("s", Column.mk (ColumnData.encStr ["a", "b"] [0, 1, 0]))]
      (Filter.BitVec [true, false, true])
      (Column.mk (ColumnData.encStr ["a", "b"] [0, 1, 0])) rfl,
   C7_column_reference "n" [("n", Column.mk (ColumnData.rawInt [7, 8]))]
      Filter.None (Column.mk (ColumnData.rawInt [7, 8])) rfl⟩

/-! ## Theorems: out-of-range equality constants (C8) -/

/-- C8 (code bug): for the full-range u16 offset codec (offset 0, valid
codes 0..=65535) the out-of-range constant 65536 encodes to the sentinel
`-1`, but `EqualsVSU16::execute` casts it with `as u16` (the source marks
the missing range check with a TODO), yielding 65535, which equals the
valid code of the column's maximal value: the comparison of the code vector
`[0, 65535]` returns `[false, true]`, not the all-false bit-vector the claim
requires. -/
theorem C8_truncated_sentinel :
    encode_int u16MAX 0 65536 = RawVal.Int (-1) ∧
    EqualsVSU16.execute (TypedVec.U16 [0, 65535])
        (TypedVec.Constant (encode_int u16MAX 0 65536)) =
      some (TypedVec.Boolean [false, true]) := by
  constructor
  · rfl
  · rfl

/-! ## Theorems: result column naming (C10) -/

theorem toString_intCast (k : Nat) : toString ((k : Int)) = toString k := rfl

theorem selectColNames_eq (es : List Expr) (k : Nat) :
    selectColNames es ((k : Int) - 1) = claimedSelectNames es k := by
  induction es generalizing k with
  | nil => rfl
  | cons e rest ih =>
    cases e with
    | ColName name =>
      simp only [selectColNames, claimedSelectNames]
      rw [ih k]
    | Const v =>
      simp only [selectColNames, claimedSelectNames]
      rw [show ((k : Int)) - 1 + 1 = ((k : Int)) from by ring, toString_intCast,
        show ((k : Int)) = ((k + 1 : Nat) : Int) - 1 from by push_cast; ring,
        ih (k + 1)]
    | Func ft lhs rhs =>
      simp only [selectColNames, claimedSelectNames]
      rw [show ((k : Int)) - 1 + 1 = ((k : Int)) from by ring, toString_intCast,
        show ((k : Int)) = ((k + 1 : Nat) : Int) - 1 from by push_cast; ring,
        ih (k + 1)]

theorem aggColNames_eq (aggs : List (Aggregator × Expr)) (k : Nat) :
    aggColNames aggs ((k : Int) - 1) = claimedAggNames aggs k := by
  induction aggs generalizing k with
  | nil => rfl
  | cons p rest ih =>
    obtain ⟨agg, e⟩ := p
    cases agg <;>
      (simp only [aggColNames, claimedAggNames]
       rw [show ((k : Int)) - 1 + 1 = ((k : Int)) from by ring, toString_intCast,
         show ((k : Int)) = ((k + 1 : Nat) : Int) - 1 from by push_cast; ring,
         ih (k + 1)])

/-- C10: the result column names are, in order, one name per select
expression (its own name for a bare column reference; `col_k` otherwise,
with `k` counting only the non-bare select expressions), followed by one
`count_k`/`sum_k` name per aggregator according to its kind, numbered by
position in the aggregate list. -/
theorem C10_result_column_names (q : Query) :
    q.result_column_names =
      claimedSelectNames q.select 0 ++ claimedAggNames q.aggregate 0 := by
  unfold Query.result_column_names
  rw [show (-1 : Int) = ((0 : Nat) : Int) - 1 from by norm_num]
  rw [selectColNames_eq q.select 0, aggColNames_eq q.aggregate 0]

/-! ## Theorems: ORDER BY phase (C6) -/

theorem filter_orderedInsert_of_eq {r : Nat → Nat → Prop} [DecidableRel r]
    (key : Nat → Int) (hr : ∀ a b, ¬ r a b → key a ≠ key b) (v : Int)
    (a : Nat) (ha : key a = v) (l : List Nat) :
    (List.orderedInsert r a l).filter (fun i => key i == v) =
      a :: l.filter (fun i => key i == v) := by
  induction l with
  | nil => simp [List.orderedInsert, ha]
  | cons b l ih =>
    by_cases hab : r a b
    · simp [List.orderedInsert, hab, ha]
    · have hbv : ¬ (key b = v) := fun hbv => hr a b hab (by rw [ha, hbv])
      simp only [List.orderedInsert, if_neg hab, List.filter_cons]
      rw [ih]
      simp [hbv]

theorem filter_orderedInsert_of_ne {r : Nat → Nat → Prop} [DecidableRel r]
    (key : Nat → Int) (v : Int) (a : Nat) (ha : ¬ (key a = v)) (l : List Nat) :
    (List.orderedInsert r a l).filter (fun i => key i == v) =
      l.filter (fun i => key i == v) := by
  induction l with
  | nil => simp [List.orderedInsert, ha]
  | cons b l ih =>
    by_cases hab : r a b
    · simp [List.orderedInsert, hab, ha]
    · simp only [List.orderedInsert, if_neg hab, List.filter_cons]
      rw [ih]

theorem filter_insertionSort {r : Nat → Nat → Prop} [DecidableRel r]
    (key : Nat → Int) (hr : ∀ a b, ¬ r a b → key a ≠ key b) (l : List Nat)
    (v : Int) :
    (List.insertionSort r l).filter (fun i => key i == v) =
      l.filter (fun i => key i == v) := by
  induction l with
  | nil => rfl
  | cons a l ih =>
    rw [List.insertionSort]
    by_cases hav : key a = v
    · rw [filter_orderedInsert_of_eq key hr v a hav, ih]
      simp [List.filter_cons, hav]
    · rw [filter_orderedInsert_of_ne key v a hav, ih]
      simp [List.filter_cons, hav]

/-- C6: with an ORDER BY column present, the driver derives the index list
as the set-bit positions of a bit-vector filter, or `0..N` with no filter;
sorts those indices by the ordering vector ascending or descending per
`order_desc`, stably (the sorted list is a permutation, ordered by the
ordering vector, and preserves the relative order of equal-key indices);
truncates to `limit + offset`; and replaces the filter with
`Filter::Indices`. -/
theorem C6_order_by (col : List Int) (b : List Bool) (order_desc : Bool)
    (limit offset : Nat) :
    orderByPhase col (Filter.BitVec b) order_desc limit offset =
      Except.ok (Filter.Indices
        ((ixSort order_desc col (bitPositions b)).take (limit + offset))) ∧
    orderByPhase col Filter.None order_desc limit offset =
      Except.ok (Filter.Indices
        ((ixSort order_desc col (List.range col.length)).take (limit + offset))) ∧
    (∀ l, (ixSort order_desc col l).Perm l) ∧
    (∀ l, (ixSort order_desc col l).Pairwise (driverOrd order_desc col)) ∧
    (∀ l v, (ixSort order_desc col l).filter (fun i => ordKey col i == v) =
      l.filter (fun i => ordKey col i == v)) := by
  cases order_desc with
  | false =>
    refine ⟨rfl, rfl, ?_, ?_, ?_⟩
    · intro l
      exact List.perm_insertionSort (ascRel col) l
    · intro l
      have hs := List.sorted_insertionSort (ascRel col) l
      exact hs.imp (fun h => by simpa [driverOrd] using h)
    · intro l v
      exact filter_insertionSort (ordKey col)
        (fun a b hab heq => hab (le_of_eq heq)) l v
  | true =>
    refine ⟨rfl, rfl, ?_, ?_, ?_⟩
    · intro l
      exact List.perm_insertionSort (descRel col) l
    · intro l
      have hs := List.sorted_insertionSort (descRel col) l
      exact hs.imp (fun h => by simpa [driverOrd] using h)
    · intro l v
      exact filter_insertionSort (ordKey col)
        (fun a b hab heq => hab (le_of_eq heq.symm)) l v

/-! ## Theorems: ingestion buffer invariant (C9) -/

theorem RawCol.len_with_nulls (n : Nat) : (RawCol.with_nulls n).len = n := by
  simp [RawCol.with_nulls, RawCol.len]

theorem RawCol.len_push (c : RawCol) (v : RawVal) :
    (c.push v).len = c.len + 1 := by
  simp [RawCol.push, RawCol.len]

theorem RawCol.len_push_input_ge (c : RawCol) (ic : InputColumn) :
    c.len ≤ (c.push_input ic).len := by
  cases ic <;>
    simp [RawCol.push_input, RawCol.push_ints, RawCol.push_strings,
      RawCol.push_nulls, RawCol.len]

theorem RawCol.len_push_vals_ge (c : RawCol) (vs : List RawVal) :
    c.len ≤ (c.push_vals vs).len := by
  induction vs generalizing c with
  | nil => exact le_refl _
  | cons v vs ih =>
    calc c.len ≤ (c.push v).len := by rw [RawCol.len_push]; omega
    _ ≤ ((c.push v).push_vals vs).len := ih (c.push v)
    _ = (c.push_vals (v :: vs)).len := by
        simp [RawCol.push_vals, List.foldl_cons]

theorem entryOr_congr {m m' : String → Option RawCol} {n : String}
    {d : RawCol} (h : m' n = m n) : entryOr m' n d = entryOr m n d := by
  unfold entryOr
  rw [h]

theorem extend_wf (m : String → Option RawCol) (L : Nat)
    (h : ∀ n c, m n = some c → RawCol.len c ≤ L) :
    (Buffer.extend_to_largest ⟨m, L⟩).wf := by
  intro n c hc
  show RawCol.len c = L
  unfold Buffer.extend_to_largest at hc
  simp only at hc
  cases hm : m n with
  | none => rw [hm] at hc; cases hc
  | some c0 =>
    rw [hm] at hc
    simp only [Option.map, Option.some.injEq] at hc
    have hle := h n c0 hm
    by_cases hlt : RawCol.len c0 < L
    · rw [if_pos hlt] at hc
      subst hc
      simp only [RawCol.push_nulls, RawCol.len, List.length_append,
        List.length_replicate] at *
      omega
    · rw [if_neg hlt] at hc
      subst hc
      omega

theorem rowFold_not_mem (row : List (String × RawVal)) (len : Nat)
    (m : String → Option RawCol) (n : String) (hn : n ∉ row.map Prod.fst) :
    row.foldl (rowStep len) m n = m n := by
  induction row generalizing m with
  | nil => rfl
  | cons p rest ih =>
    simp only [List.map_cons, List.mem_cons] at hn
    push_neg at hn
    rw [List.foldl_cons, ih _ hn.2]
    unfold rowStep mapUpdate
    rw [if_neg hn.1]

theorem rowFold_mem (row : List (String × RawVal)) (len : Nat)
    (m : String → Option RawCol) (hnd : (row.map Prod.fst).Nodup) (n : String)
    (v : RawVal) (hmem : (n, v) ∈ row) :
    row.foldl (rowStep len) m n =
      some ((entryOr m n (RawCol.with_nulls len)).push v) := by
  induction row generalizing m with
  | nil => cases hmem
  | cons p rest ih =>
    simp only [List.map_cons, List.nodup_cons] at hnd
    rcases List.mem_cons.mp hmem with heq | hrest
    · subst heq
      rw [List.foldl_cons, rowFold_not_mem rest len _ n hnd.1]
      unfold rowStep mapUpdate
      rw [if_pos rfl]
    · have hnk : n ∈ rest.map Prod.fst :=
        List.mem_map.mpr ⟨(n, v), hrest, rfl⟩
      have hne : n ≠ p.1 := fun h => hnd.1 (h ▸ hnk)
      rw [List.foldl_cons, ih _ hnd.2 hrest]
      have hm' : rowStep len m p n = m n := by
        unfold rowStep mapUpdate
        rw [if_neg hne]
      rw [entryOr_congr hm']

theorem push_row_wf (b : Buffer) (row : List (String × RawVal))
    (hnd : (row.map Prod.fst).Nodup) (hwf : b.wf) : (b.push_row row).wf := by
  unfold Buffer.push_row
  apply extend_wf
  intro n c hc
  by_cases hn : n ∈ row.map Prod.fst
  · obtain ⟨p, hp, hp1⟩ := List.mem_map.mp hn
    have hmem : (n, p.2) ∈ row := by
      have : p = (n, p.2) := by
        obtain ⟨p1, p2⟩ := p
        simp at hp1
        rw [hp1]
      exact this ▸ hp
    rw [rowFold_mem row b.len b.buffer hnd n p.2 hmem] at hc
    injection hc with hc
    subst hc
    rw [RawCol.len_push]
    unfold entryOr
    cases hm : b.buffer n with
    | none => rw [RawCol.len_with_nulls]; exact le_refl _
    | some c0 => rw [hwf n c0 hm]
  · rw [rowFold_not_mem row b.len b.buffer n hn] at hc
    rw [hwf n c hc]
    omega

theorem bulkFold_fst_not_mem {χ : Type} (δ : RawCol → χ → RawCol)
    (cols : List (String × χ)) (len : Nat)
    (acc : (String → Option RawCol) × Nat) (n : String)
    (hn : n ∉ cols.map Prod.fst) :
    (cols.foldl (bulkStep δ len) acc).1 n = acc.1 n := by
  induction cols generalizing acc with
  | nil => rfl
  | cons p rest ih =>
    simp only [List.map_cons, List.mem_cons] at hn
    push_neg at hn
    rw [List.foldl_cons, ih _ hn.2]
    unfold bulkStep mapUpdate
    simp only
    rw [if_neg hn.1]

theorem bulkFold_fst_mem {χ : Type} (δ : RawCol → χ → RawCol)
    (cols : List (String × χ)) (len : Nat)
    (acc : (String → Option RawCol) × Nat)
    (hnd : (cols.map Prod.fst).Nodup) (n : String) (x : χ)
    (hmem : (n, x) ∈ cols) :
    (cols.foldl (bulkStep δ len) acc).1 n =
      some (δ (entryOr acc.1 n (RawCol.with_nulls len)) x) := by
  induction cols generalizing acc with
  | nil => cases hmem
  | cons p rest ih =>
    simp only [List.map_cons, List.nodup_cons] at hnd
    rcases List.mem_cons.mp hmem with heq | hrest
    · subst heq
      rw [List.foldl_cons, bulkFold_fst_not_mem δ rest len _ n hnd.1]
      unfold bulkStep mapUpdate
      simp
    · have hnk : n ∈ rest.map Prod.fst :=
        List.mem_map.mpr ⟨(n, x), hrest, rfl⟩
      have hne : n ≠ p.1 := fun h => hnd.1 (h ▸ hnk)
      rw [List.foldl_cons, ih _ hnd.2 hrest]
      have hm' : (bulkStep δ len acc p).1 n = acc.1 n := by
        unfold bulkStep mapUpdate
        simp only
        rw [if_neg hne]
      rw [entryOr_congr hm']

theorem bulkFold_snd_mono {χ : Type} (δ : RawCol → χ → RawCol)
    (cols : List (String × χ)) (len : Nat)
    (acc : (String → Option RawCol) × Nat) :
    acc.2 ≤ (cols.foldl (bulkStep δ len) acc).2 := by
  induction cols generalizing acc with
  | nil => exact le_refl _
  | cons p rest ih =>
    rw [List.foldl_cons]
    refine le_trans ?_ (ih (bulkStep δ len acc p))
    unfold bulkStep
    simp only
    exact Nat.le_max_left _ _

theorem bulkFold_mem_len_le {χ : Type} (δ : RawCol → χ → RawCol)
    (cols : List (String × χ)) (len : Nat)
    (acc : (String → Option RawCol) × Nat)
    (hnd : (cols.map Prod.fst).Nodup) (n : String) (x : χ)
    (hmem : (n, x) ∈ cols) :
    RawCol.len (δ (entryOr acc.1 n (RawCol.with_nulls len)) x) ≤
      (cols.foldl (bulkStep δ len) acc).2 := by
  induction cols generalizing acc with
  | nil => cases hmem
  | cons p rest ih =>
    simp only [List.map_cons, List.nodup_cons] at hnd
    rcases List.mem_cons.mp hmem with heq | hrest
    · subst heq
      rw [List.foldl_cons]
      refine le_trans ?_ (bulkFold_snd_mono δ rest len _)
      unfold bulkStep
      simp only
      exact Nat.le_max_right _ _
    · have hnk : n ∈ rest.map Prod.fst :=
        List.mem_map.mpr ⟨(n, x), hrest, rfl⟩
      have hne : n ≠ p.1 := fun h => hnd.1 (h ▸ hnk)
      rw [List.foldl_cons]
      have hm' : (bulkStep δ len acc p).1 n = acc.1 n := by
        unfold bulkStep mapUpdate
        simp only
        rw [if_neg hne]
      rw [← entryOr_congr (d := RawCol.with_nulls len) hm']
      exact ih _ hnd.2 hrest

theorem push_cols_wf {χ : Type} (δ : RawCol → χ → RawCol)
    (hδ : ∀ c x, RawCol.len c ≤ RawCol.len (δ c x)) (b : Buffer)
    (cols : List (String × χ)) (hne : cols ≠ [])
    (hnd : (cols.map Prod.fst).Nodup) (hwf : b.wf) :
    (b.push_cols δ cols).wf := by
  unfold Buffer.push_cols
  apply extend_wf
  intro n c hc
  have hBle : b.length ≤ (cols.foldl (bulkStep δ b.len) (b.buffer, 0)).2 := by
    obtain ⟨p, rest, rfl⟩ : ∃ p rest, cols = p :: rest := by
      cases cols with
      | nil => exact absurd rfl hne
      | cons p rest => exact ⟨p, rest, rfl⟩
    rw [List.foldl_cons]
    refine le_trans ?_ (bulkFold_snd_mono δ rest b.len _)
    show b.length ≤
      Nat.max 0 (RawCol.len (δ (entryOr b.buffer p.1 (RawCol.with_nulls b.len)) p.2))
    refine le_trans (le_trans ?_ (hδ _ _)) (Nat.le_max_right _ _)
    unfold entryOr
    cases hm : b.buffer p.1 with
    | none => rw [RawCol.len_with_nulls]; exact le_refl _
    | some c0 => exact le_of_eq (hwf p.1 c0 hm).symm
  by_cases hn : n ∈ cols.map Prod.fst
  · obtain ⟨p, hp, hp1⟩ := List.mem_map.mp hn
    have hmem : (n, p.2) ∈ cols := by
      have : p = (n, p.2) := by
        obtain ⟨p1, p2⟩ := p
        simp at hp1
        rw [hp1]
      exact this ▸ hp
    rw [bulkFold_fst_mem δ cols b.len _ hnd n p.2 hmem] at hc
    injection hc with hc
    subst hc
    exact bulkFold_mem_len_le δ cols b.len _ hnd n p.2 hmem
  · rw [bulkFold_fst_not_mem δ cols b.len _ n hn] at hc
    rw [hwf n c hc]
    exact hBle

theorem applyOp_wf (b : Buffer) (op : PushOp) (hg : op.good) (hwf : b.wf) :
    (b.applyOp op).wf := by
  cases op with
  | row r => exact push_row_wf b r hg hwf
  | typed cols =>
    exact push_cols_wf RawCol.push_input RawCol.len_push_input_ge b cols
      hg.1 hg.2 hwf
  | untyped cols =>
    exact push_cols_wf RawCol.push_vals RawCol.len_push_vals_ge b cols
      hg.1 hg.2 hwf

theorem foldl_applyOp_wf (ops : List PushOp) (b : Buffer) (hwf : b.wf)
    (hg : ∀ op ∈ ops, op.good) : (ops.foldl Buffer.applyOp b).wf := by
  induction ops generalizing b with
  | nil => exact hwf
  | cons op rest ih =>
    rw [List.foldl_cons]
    exact ih _ (applyOp_wf b op (hg op (List.mem_cons_self op rest)) hwf)
      (fun o ho => hg o (List.mem_cons_of_mem op ho))

/-- C9 (amended): for every sequence of `push_row`, `push_typed_cols` and
`push_untyped_cols` calls in which each `push_row` row names each column at
most once and each bulk push passes a nonempty column map, afterwards every
buffered column has length equal to the buffer's recorded length (absent
columns are padded with nulls), so all buffered columns have equal row
count. -/
theorem C9_equal_lengths (ops : List PushOp) (hg : ∀ op ∈ ops, op.good) :
    (ops.foldl Buffer.applyOp Buffer.defaultBuffer).wf ∧
    (∀ n₁ c₁ n₂ c₂,
      (ops.foldl Buffer.applyOp Buffer.defaultBuffer).buffer n₁ = some c₁ →
      (ops.foldl Buffer.applyOp Buffer.defaultBuffer).buffer n₂ = some c₂ →
      RawCol.len c₁ = RawCol.len c₂) := by
  have hwf := foldl_applyOp_wf ops Buffer.defaultBuffer
    (fun n c hc => Option.noConfusion hc) hg
  exact ⟨hwf, fun n₁ c₁ n₂ c₂ h₁ h₂ => by
    rw [hwf n₁ c₁ h₁, hwf n₂ c₂ h₂]⟩

/-- C9 counterexample: a single `push_row` whose row repeats the column name
`a` leaves column `a` with two values while the recorded length is 1,
violating the claimed invariant. -/
theorem C9_counterexample :
    (Buffer.defaultBuffer.push_row
      [("a", RawVal.Int 1), ("a", RawVal.Int 2)]).length = 1 ∧
    (Buffer.defaultBuffer.push_row
      [("a", RawVal.Int 1), ("a", RawVal.Int 2)]).buffer "a" =
      some [RawVal.Int 1, RawVal.Int 2] ∧
    ¬ (Buffer.defaultBuffer.push_row
      [("a", RawVal.Int 1), ("a", RawVal.Int 2)]).wf := by
  refine ⟨by decide, by decide, fun hwf => ?_⟩
  have h2 := hwf "a" [RawVal.Int 1, RawVal.Int 2] (by decide)
  revert h2
  decide

/-- Witness for C9 at a concrete call sequence: a row push of columns `a`,
`b` followed by a typed push of column `c` with two rows leaves all three
columns with the recorded length. -/
theorem C9_witness :
    (([PushOp.row [("a", RawVal.Int 1), ("b", RawVal.Str "x")],
       PushOp.typed [("c", InputColumn.IntCol [1, 2])]].foldl
        Buffer.applyOp Buffer.defaultBuffer).wf ∧
     (∀ n₁ c₁ n₂ c₂,
      ([PushOp.row [("a", RawVal.Int 1), ("b", RawVal.Str "x")],
        PushOp.typed [("c", InputColumn.IntCol [1, 2])]].foldl
          Buffer.applyOp Buffer.defaultBuffer).buffer n₁ = some c₁ →
      ([PushOp.row [("a", RawVal.Int 1), ("b", RawVal.Str "x")],
        PushOp.typed [("c", InputColumn.IntCol [1, 2])]].foldl
          Buffer.applyOp Buffer.defaultBuffer).buffer n₂ = some c₂ →
      RawCol.len c₁ = RawCol.len c₂)) :=
  C9_equal_lengths
    [PushOp.row [("a", RawVal.Int 1), ("b", RawVal.Str "x")],
     PushOp.typed [("c", InputColumn.IntCol [1, 2])]]
    (by decide)
